import Mathlib

/-!
Verification of the GCE metadata processor (`src/plugins/processors/gce/gce.go`)
and of the ordered enrichment dispatcher it uses.

The Go code is shallowly embedded: Go functions become Lean functions, the
remote metadata client becomes an explicit response environment, Go's
`(value, error)` returns become `Except`, and a Go runtime panic becomes an
explicit `panicked` outcome.
-/

namespace Gce

/-- Outcome of a Go computation: a normal value, a returned `error`, or a
runtime panic (the process-terminating condition). -/
inductive GoResult (α : Type) where
  | ok (val : α)
  | goError (msg : String)
  | panicked (msg : String)
deriving DecidableEq

/-- The permitted metadata tag names, from the `permittedTags` map in gce.go. -/
def permittedTags : List String := ["zone", "tags", "name", "hostname"]

/-- `isTagPermitted` from gce.go: membership in the permitted-tag map. -/
def isTagPermitted (tag : String) : Bool := permittedTags.contains tag

/-- Key insertion into the model of a Go `map` keyed by strings: the key list
stays duplicate-free, insertion order is kept for determinism. -/
def mapInsert (m : List String) (k : String) : List String :=
  if k ∈ m then m else m ++ [k]

/-- The loop body of `GceProcessor.Init`: walk the configured `allow_tags`,
fail on the first empty or un-permitted entry, otherwise record each name in
`allowTagsMap`. -/
def initLoop (m : List String) : List String → Except String (List String)
  | [] => .ok m
  | tag :: rest =>
    if tag.length == 0 || !isTagPermitted tag then
      .error ("un-permitted metadata tag specified in configuration: " ++ tag)
    else initLoop (mapInsert m tag) rest

/-- `GceProcessor.Init` from gce.go, starting from the empty `allowTagsMap`
that `newGceProcessor` allocates. Returns the resulting map keys. -/
def gceInit (allowTags : List String) : Except String (List String) :=
  initLoop [] allowTags

/-- The dispatcher variant `GceProcessor.Start` constructs:
`parallel.NewOrdered` or `parallel.NewUnordered`. -/
inductive ParallelKind where
  | ordered (maxQueueSize : Nat) (maxParallelCalls : Nat)
  | unordered (maxParallelCalls : Nat)
deriving DecidableEq

/-- Default ordered-queue bound from gce.go. -/
def DefaultMaxOrderedQueueSize : Nat := 10000

/-- Default number of parallel calls from gce.go. -/
def DefaultMaxParallelCalls : Nat := 10

/-- Default timeout from gce.go, in milliseconds. -/
def DefaultTimeout : Nat := 10000

/-- The `GceProcessor` fields that `Start` and `Stop` consult: `parallel` is
`none` before `Start` has run, mirroring the nil interface field in Go. -/
structure GceProcessor where
  allowTags : List String
  timeout : Nat
  ordered : Bool
  maxParallelCalls : Nat
  allowTagsMap : List String
  parallel : Option ParallelKind
deriving DecidableEq

/-- `newGceProcessor` from gce.go: defaults, empty map, no dispatcher yet. -/
def newGceProcessor : GceProcessor :=
  { allowTags := []
    timeout := DefaultTimeout
    ordered := false
    maxParallelCalls := DefaultMaxParallelCalls
    allowTagsMap := []
    parallel := none }

/-- `GceProcessor.Start` from gce.go: construct the ordered or unordered
dispatcher according to the `Ordered` flag; always returns nil error. -/
def GceProcessor.start (p : GceProcessor) : GceProcessor × Except String Unit :=
  ({ p with
      parallel := some (if p.ordered then
        ParallelKind.ordered DefaultMaxOrderedQueueSize p.maxParallelCalls
      else
        ParallelKind.unordered p.maxParallelCalls) },
   .ok ())

/-- `GceProcessor.Stop` from gce.go: error if `parallel` was never set,
otherwise delegate to the dispatcher and return the dispatcher it stopped. -/
def GceProcessor.stop (p : GceProcessor) : Except String ParallelKind :=
  match p.parallel with
  | none => .error "trying to stop unstarted GCE Processor"
  | some d => .ok d

/-- The remote metadata client, as a response environment: each call either
returns a value or a Go `error`, and takes some wall-clock time (in
milliseconds) that the caller cannot influence, since gce.go passes no
context or deadline into any of these calls. -/
structure GceClient where
  zone : Except String String
  instanceTags : Except String (List String)
  instanceName : Except String String
  hostname : Except String String
  zoneMs : Nat
  instanceTagsMs : Nat
  instanceNameMs : Nat
  hostnameMs : Nat

/-- Helper for Go `strings.Split` with a one-character separator:
accumulate the current segment while scanning the character list. -/
def goSplitAux (sep : Char) (cur : List Char) : List Char → List (List Char)
  | [] => [cur.reverse]
  | c :: cs =>
    if c = sep then cur.reverse :: goSplitAux sep [] cs
    else goSplitAux sep (c :: cur) cs

/-- Go `strings.Split s sep` for a one-character separator: always returns at
least one (possibly empty) segment. -/
def goSplit (s : String) (sep : Char) : List String :=
  (goSplitAux sep [] s.toList).map (fun cs => String.mk cs)

/-- Go slice indexing: in range yields the element, out of range panics. -/
def goIndex (l : List String) (i : Nat) : GoResult String :=
  match l[i]? with
  | some v => .ok v
  | none => .panicked "runtime error: index out of range"

/-- `GceProcessor.getTagFromGCE` from gce.go: switch on the tag name; each
known tag consults the client and propagates its error; the `zone` value is
the fourth `/`-separated segment of the client's zone path (unguarded index);
unknown tags fall through to `("", nil)`. -/
def getTagFromGCE (c : GceClient) (tag : String) : GoResult String :=
  if tag = "zone" then
    match c.zone with
    | .error e => .goError e
    | .ok z => goIndex (goSplit z '/') 3
  else if tag = "tags" then
    match c.instanceTags with
    | .error e => .goError e
    | .ok ts => .ok (String.intercalate "," ts)
  else if tag = "name" then
    match c.instanceName with
    | .error e => .goError e
    | .ok n => .ok n
  else if tag = "hostname" then
    match c.hostname with
    | .error e => .goError e
    | .ok h => .ok h
  else .ok ""

/-- Wall-clock time of the remote call behind one `getTagFromGCE` lookup. -/
def getTagElapsed (c : GceClient) (tag : String) : Nat :=
  if tag = "zone" then c.zoneMs
  else if tag = "tags" then c.instanceTagsMs
  else if tag = "name" then c.instanceNameMs
  else if tag = "hostname" then c.hostnameMs
  else 0

/-- A telegraf metric as the processor sees it: a measurement name, a tag
map and a field map (values kept opaque as strings). -/
structure Metric where
  name : String
  tags : List (String × String)
  fields : List (String × String)
deriving DecidableEq

/-- Key-value update backing `Metric.AddTag`: overwrite an existing key or
append a new pair. -/
def setTag : List (String × String) → String → String → List (String × String)
  | [], k, v => [(k, v)]
  | (k2, v2) :: rest, k, v =>
    if k2 = k then (k, v) :: rest else (k2, v2) :: setTag rest k v

/-- Lookup in a tag list. -/
def tagValue : List (String × String) → String → Option String
  | [], _ => none
  | (k2, v2) :: rest, k => if k2 = k then some v2 else tagValue rest k

/-- `metric.AddTag(k, v)`: set tag `k` to `v`, leaving everything else. -/
def Metric.addTag (m : Metric) (k v : String) : Metric :=
  { m with tags := setTag m.tags k v }

/-- The value of tag `k` on a metric, if present. -/
def Metric.getTag (m : Metric) (k : String) : Option String :=
  tagValue m.tags k

/-- The loop of `GceProcessor.asyncAdd` over the keys of `allowTagsMap`: on a
lookup value add the tag, on a lookup error the Go code calls `panic(err)`. -/
def asyncAddLoop (c : GceClient) : List String → Metric → GoResult (List Metric)
  | [], m => .ok [m]
  | tag :: rest, m =>
    match getTagFromGCE c tag with
    | .ok v => asyncAddLoop c rest (m.addTag tag v)
    | .goError e => .panicked e
    | .panicked e => .panicked e

/-- `GceProcessor.asyncAdd` from gce.go. The function creates a timeout
context and immediately discards it (the context is bound to the blank
identifier and never passed to any lookup), so the `timeout` argument has no
influence on the body; it then runs the lookup loop and returns the single
input metric. -/
def asyncAdd (timeout : Nat) (c : GceClient) (allowTagsMap : List String)
    (m : Metric) : GoResult (List Metric) :=
  asyncAddLoop c allowTagsMap m

/-- A concrete healthy client used to instantiate theorems with hypotheses. -/
def sampleClient : GceClient :=
  { zone := .ok "projects/123456/zones/us-central1-b"
    instanceTags := .ok ["alpha", "beta"]
    instanceName := .ok "vm-1"
    hostname := .ok "vm-1.c.example.internal"
    zoneMs := 5
    instanceTagsMs := 5
    instanceNameMs := 5
    hostnameMs := 5 }

/-- A client whose name lookup fails with a timeout-style error. -/
def failingClient : GceClient :=
  { sampleClient with instanceName := .error "metadata: connection timed out" }

/-- A client whose zone lookup takes one hour of wall time yet succeeds. -/
def slowClient : GceClient :=
  { sampleClient with zoneMs := 3600000 }

/-- A client whose zone path has a single segment (no `/` separators). -/
def badZoneClient : GceClient :=
  { sampleClient with zone := .ok "us-central1-b" }

/-- A concrete input metric. -/
def sampleMetric : Metric :=
  { name := "cpu"
    tags := [("host", "h1")]
    fields := [("usage", "42")] }

/-- `sampleMetric` after the `name` tag has been attached. -/
def sampleEnriched : Metric :=
  { name := "cpu"
    tags := [("host", "h1"), ("name", "vm-1")]
    fields := [("usage", "42")] }

/-- Modelled from the spec: the ordered dispatcher of
`plugins/common/parallel`, selected by `GceProcessor.Start` when `Ordered`
is set, is not among the sources; its release step is taken from the spec.
`drainFrom` advances the release cursor over the completed set `done` while
the cursor's sequence number has completed; `fuel` only bounds the walk so
the recursion is structural. -/
def drainFrom (done : List Nat) : Nat → Nat → Nat
  | 0, n => n
  | fuel + 1, n => if n ∈ done then drainFrom done fuel (n + 1) else n

/-- Modelled from the spec: ordered-dispatcher state — the sequence numbers
whose enrichment has completed, the release cursor `next`, and the sequence
numbers already released to the Sink, in release order. -/
structure OrderedState where
  done : List Nat
  next : Nat
  released : List Nat
deriving DecidableEq

/-- Modelled from the spec: one completion event for sequence number `c` in
ordered mode: record it as completed, then release every consecutively
completed item starting at the cursor. -/
def orderedStep (s : OrderedState) (c : Nat) : OrderedState :=
  { done := c :: s.done
    next := drainFrom (c :: s.done) (c :: s.done).length s.next
    released := s.released ++
      List.range' s.next (drainFrom (c :: s.done) (c :: s.done).length s.next - s.next) }

/-- Modelled from the spec: run the ordered dispatcher over a completion
order, starting from the empty reorder buffer. -/
def orderedRun (comps : List Nat) : OrderedState :=
  comps.foldl orderedStep ⟨[], 0, []⟩

/-- Modelled from the spec: the record stream the Sink receives — each
released item's enrichment outputs, concatenated in release order. -/
def sinkRecords {α : Type} (out : Nat → List α) (comps : List Nat) : List α :=
  (orderedRun comps).released.flatMap out

/-- Modelled from the spec: the reorder-buffer invariant — the Sink has
received exactly the sequence numbers below the cursor, in increasing order,
the completed set is the set of processed completions, and the cursor sits on
the first uncompleted sequence number. -/
def OrderedInv (processed : List Nat) (s : OrderedState) : Prop :=
  (∀ k, k ∈ s.done ↔ k ∈ processed)
  ∧ s.released = List.range s.next
  ∧ (∀ k, k < s.next → k ∈ s.done)
  ∧ s.next ∉ s.done

end Gce

namespace Gce

/-- C6: for every field name outside the four known names the lookup function
silently drops it, returning the empty string and no error. -/
theorem unknown_tag_silently_dropped (c : GceClient) (tag : String)
    (h : tag ∉ permittedTags) : getTagFromGCE c tag = .ok "" := by
  simp only [permittedTags, List.mem_cons, List.not_mem_nil, or_false, not_or] at h
  obtain ⟨h1, h2, h3, h4⟩ := h
  simp [getTagFromGCE, h1, h2, h3, h4]

/-- Witness for C6 at the concrete tag `instance-id`. -/
theorem unknown_tag_silently_dropped_witness :
    getTagFromGCE sampleClient "instance-id" = .ok "" :=
  unknown_tag_silently_dropped sampleClient "instance-id" (by decide)

/-- C5: `Stop` on a processor whose dispatcher was never constructed returns a
usage error; `Stop` right after a successful `Start` delegates to the
dispatcher and returns no error. -/
theorem stop_before_start_errors (p q : GceProcessor) (hp : p.parallel = none) :
    (∃ e, p.stop = .error e) ∧ (q.start.2 = .ok () ∧ ∃ d, q.start.1.stop = .ok d) := by
  refine ⟨⟨"trying to stop unstarted GCE Processor", ?_⟩, rfl, ?_⟩
  · simp [GceProcessor.stop, hp]
  · exact ⟨_, rfl⟩

/-- Witness for C5 at the freshly allocated processor. -/
theorem stop_before_start_errors_witness :
    (∃ e, newGceProcessor.stop = .error e) ∧
      (newGceProcessor.start.2 = .ok () ∧ ∃ d, newGceProcessor.start.1.stop = .ok d) :=
  stop_before_start_errors newGceProcessor newGceProcessor rfl

/-- A string of length zero is the empty string. -/
theorem eq_empty_of_length_eq_zero {s : String} (h : s.length = 0) : s = "" := by
  cases s with
  | mk data =>
    have hd : data = [] := List.length_eq_zero.mp h
    subst hd
    rfl

/-- Membership in the Go-map model: inserting `k` adds exactly `k`. -/
theorem mem_mapInsert (m : List String) (k t : String) :
    t ∈ mapInsert m k ↔ t ∈ m ∨ t = k := by
  unfold mapInsert
  by_cases hk : k ∈ m
  · simp only [if_pos hk]
    constructor
    · exact fun h => Or.inl h
    · rintro (h | rfl)
      · exact h
      · exact hk
  · simp [if_neg hk]

/-- The `Init` loop errors exactly when some remaining entry is empty or
un-permitted; on success the final map keys are the accumulator keys plus the
remaining entries. -/
theorem initLoop_spec (l : List String) : ∀ acc : List String,
    ((∃ t ∈ l, t = "" ∨ isTagPermitted t = false) ↔ ∃ e, initLoop acc l = .error e)
    ∧ (∀ m, initLoop acc l = .ok m → ∀ t, t ∈ m ↔ (t ∈ acc ∨ t ∈ l)) := by
  induction l with
  | nil =>
    intro acc
    refine ⟨⟨fun h => absurd h (by simp), fun ⟨e, he⟩ => by simp [initLoop] at he⟩, ?_⟩
    intro m hm t
    simp only [initLoop] at hm
    cases hm
    simp
  | cons tag rest ih =>
    intro acc
    by_cases hbad : (tag.length == 0 || !isTagPermitted tag) = true
    · have hstep : initLoop acc (tag :: rest) =
          .error ("un-permitted metadata tag specified in configuration: " ++ tag) := by
        simp [initLoop, hbad]
      have htagbad : tag = "" ∨ isTagPermitted tag = false := by
        rcases Bool.or_eq_true_iff.mp hbad with h | h
        · left
          have hlen : tag.length = 0 := by simpa using h
          exact eq_empty_of_length_eq_zero hlen
        · right
          simpa using h
      refine ⟨⟨fun _ => ⟨_, hstep⟩, fun _ => ⟨tag, by simp, htagbad⟩⟩, ?_⟩
      intro m hm
      rw [hstep] at hm
      cases hm
    · have hstep : initLoop acc (tag :: rest) = initLoop (mapInsert acc tag) rest := by
        simp [initLoop, hbad]
      have htaggood : ¬(tag = "" ∨ isTagPermitted tag = false) := by
        simp only [Bool.or_eq_true_iff, not_or] at hbad ⊢
        push_neg at hbad
        constructor
        · intro hcon
          exact absurd (by simp [hcon]) hbad.1
        · intro hcon
          exact absurd (by simp [hcon]) hbad.2
      obtain ⟨ihErr, ihOk⟩ := ih (mapInsert acc tag)
      constructor
      · rw [hstep]
        constructor
        · rintro ⟨t, ht, hb⟩
          rcases List.mem_cons.mp ht with rfl | hmem
          · exact absurd hb htaggood
          · exact ihErr.mp ⟨t, hmem, hb⟩
        · intro he
          obtain ⟨t, ht, hb⟩ := ihErr.mpr he
          exact ⟨t, List.mem_cons_of_mem _ ht, hb⟩
      · intro m hm t
        rw [hstep] at hm
        rw [ihOk m hm t, mem_mapInsert]
        constructor
        · rintro ((h | rfl) | h)
          · exact Or.inl h
          · exact Or.inr (by simp)
          · exact Or.inr (List.mem_cons_of_mem _ h)
        · rintro (h | h)
          · exact Or.inl (Or.inl h)
          · rcases List.mem_cons.mp h with rfl | h
            · exact Or.inl (Or.inr rfl)
            · exact Or.inr h

/-- C4: initialization returns an error iff some configured allow-list entry
is empty or not one of the four permitted names; otherwise it succeeds and the
recorded map keys are exactly the configured names. -/
theorem gceInit_spec (allowTags : List String) :
    ((∃ t ∈ allowTags, t = "" ∨ isTagPermitted t = false) ↔
        ∃ e, gceInit allowTags = .error e)
    ∧ (∀ m, gceInit allowTags = .ok m → ∀ t, t ∈ m ↔ t ∈ allowTags) := by
  obtain ⟨h1, h2⟩ := initLoop_spec allowTags []
  refine ⟨h1, fun m hm t => ?_⟩
  rw [h2 m hm t]
  simp

/-- Witness for C4 at the concrete configuration `[zone, name]`. -/
theorem gceInit_spec_witness :
    "name" ∈ (["zone", "name"] : List String) ↔
      "name" ∈ (["zone", "name"] : List String) :=
  (gceInit_spec ["zone", "name"]).2 ["zone", "name"] rfl "name"

/-- C7: for each of the four permitted names, a successful client lookup makes
`getTagFromGCE` return the corresponding value with no error: the fourth
`/`-separated segment of the zone path, the labels joined by `,`, the instance
name and the hostname. -/
theorem permitted_tag_values (c : GceClient) (z nm hn : String) (ts : List String)
    (hz : c.zone = .ok z) (hlen : 3 < (goSplit z '/').length)
    (ht : c.instanceTags = .ok ts) (hnm : c.instanceName = .ok nm)
    (hh : c.hostname = .ok hn) :
    getTagFromGCE c "zone" = .ok ((goSplit z '/').get ⟨3, hlen⟩)
    ∧ getTagFromGCE c "tags" = .ok (String.intercalate "," ts)
    ∧ getTagFromGCE c "name" = .ok nm
    ∧ getTagFromGCE c "hostname" = .ok hn := by
  refine ⟨?_, ?_, ?_, ?_⟩
  · simp [getTagFromGCE, hz, goIndex, List.getElem?_eq_getElem hlen]
  · simp [getTagFromGCE, ht]
  · simp [getTagFromGCE, hnm]
  · simp [getTagFromGCE, hh]

/-- Witness for C7 at the concrete healthy client. -/
theorem permitted_tag_values_witness :
    getTagFromGCE sampleClient "zone" = .ok "us-central1-b"
    ∧ getTagFromGCE sampleClient "tags" = .ok "alpha,beta"
    ∧ getTagFromGCE sampleClient "name" = .ok "vm-1"
    ∧ getTagFromGCE sampleClient "hostname" = .ok "vm-1.c.example.internal" := by
  have h := permitted_tag_values sampleClient "projects/123456/zones/us-central1-b"
    "vm-1" "vm-1.c.example.internal" ["alpha", "beta"] rfl (by decide) rfl rfl rfl
  exact ⟨h.1.trans (by decide), h.2.1.trans (by decide), h.2.2.1, h.2.2.2⟩

/-- C9: with a successful zone response, the zone lookup is total exactly when
the zone path splits into at least four segments; with three or fewer segments
the unguarded index panics. -/
theorem zone_lookup_guard (c : GceClient) (z : String) (hz : c.zone = .ok z) :
    (3 < (goSplit z '/').length → ∃ v, getTagFromGCE c "zone" = .ok v)
    ∧ ((goSplit z '/').length ≤ 3 →
        getTagFromGCE c "zone" = .panicked "runtime error: index out of range") := by
  constructor
  · intro hlt
    refine ⟨(goSplit z '/').get ⟨3, hlt⟩, ?_⟩
    simp [getTagFromGCE, hz, goIndex, List.getElem?_eq_getElem hlt]
  · intro hle
    have hnone : (goSplit z '/')[3]? = none := List.getElem?_eq_none hle
    simp [getTagFromGCE, hz, goIndex, hnone]

/-- Witness for C9: the healthy client succeeds and the single-segment zone
path panics. -/
theorem zone_lookup_guard_witness :
    (∃ v, getTagFromGCE sampleClient "zone" = .ok v)
    ∧ getTagFromGCE badZoneClient "zone" = .panicked "runtime error: index out of range" :=
  ⟨(zone_lookup_guard sampleClient "projects/123456/zones/us-central1-b" rfl).1 (by decide),
   (zone_lookup_guard badZoneClient "us-central1-b" rfl).2 (by decide)⟩

/-- C2 (code bug): on a failed lookup `asyncAdd` calls `panic(err)`, so one
timed-out name lookup terminates the process instead of surfacing a
recoverable error and releasing the metric. -/
theorem lookup_failure_panics :
    asyncAdd DefaultTimeout failingClient ["name"] sampleMetric
      = .panicked "metadata: connection timed out" := rfl

/-- C3 (code bug): `asyncAdd` builds a timeout context and discards it, so its
behaviour is independent of the configured timeout, and a zone lookup taking
one hour of wall time still completes normally under the 10 s default. -/
theorem timeout_context_discarded :
    (∀ t1 t2 c allow m, asyncAdd t1 c allow m = asyncAdd t2 c allow m)
    ∧ DefaultTimeout < getTagElapsed slowClient "zone"
    ∧ getTagFromGCE slowClient "zone" = .ok "us-central1-b" :=
  ⟨fun _ _ _ _ _ => rfl, by decide, by decide⟩

/-- Setting one tag key leaves the lookup of every other key unchanged. -/
theorem tagValue_setTag_ne (tags : List (String × String)) (tag v k : String)
    (h : k ≠ tag) : tagValue (setTag tags tag v) k = tagValue tags k := by
  induction tags with
  | nil =>
    have hne : ¬tag = k := fun hc => h hc.symm
    simp [setTag, tagValue, hne]
  | cons p rest ih =>
    obtain ⟨k2, v2⟩ := p
    by_cases hk2 : k2 = tag
    · subst hk2
      simp only [setTag, if_pos rfl, tagValue]
      rw [if_neg (fun hc => h hc.symm), if_neg (fun hc => h hc.symm)]
    · simp only [setTag, if_neg hk2, tagValue]
      by_cases hkk : k2 = k
      · simp [hkk]
      · simp [hkk, ih]

/-- Adding one tag leaves every other tag of the metric unchanged. -/
theorem getTag_addTag_ne (m : Metric) (tag v k : String) (h : k ≠ tag) :
    (m.addTag tag v).getTag k = m.getTag k :=
  tagValue_setTag_ne m.tags tag v k h

/-- The `asyncAdd` loop, when it returns normally, returns exactly the input
metric with tags added only for the keys it walked: name and fields are
untouched and so is every tag key outside the walked list. -/
theorem asyncAddLoop_ok (c : GceClient) :
    ∀ (l : List String) (m : Metric) (out : List Metric),
      asyncAddLoop c l m = .ok out →
      ∃ m2, out = [m2] ∧ m2.name = m.name ∧ m2.fields = m.fields ∧
        ∀ k, k ∉ l → m2.getTag k = m.getTag k := by
  intro l
  induction l with
  | nil =>
    intro m out h
    simp only [asyncAddLoop] at h
    injection h with h1
    exact ⟨m, h1.symm, rfl, rfl, fun _ _ => rfl⟩
  | cons tag rest ih =>
    intro m out h
    simp only [asyncAddLoop] at h
    cases hg : getTagFromGCE c tag with
    | ok v =>
      rw [hg] at h
      obtain ⟨m2, rfl, hname, hfields, htags⟩ := ih (m.addTag tag v) out h
      refine ⟨m2, rfl, hname, hfields, fun k hk => ?_⟩
      have hk1 : k ∉ rest := fun hc => hk (List.mem_cons_of_mem _ hc)
      have hk2 : k ≠ tag := fun hc => hk (hc ▸ List.mem_cons_self _ _)
      rw [htags k hk1, getTag_addTag_ne m tag v k hk2]
    | goError e =>
      rw [hg] at h
      cases h
    | panicked e =>
      rw [hg] at h
      cases h

/-- C8: whenever `asyncAdd` returns, it returns exactly one record, namely
the input metric itself with tags possibly added (same name, same fields). -/
theorem asyncAdd_single_output (t : Nat) (c : GceClient) (allow : List String)
    (m : Metric) (out : List Metric) (h : asyncAdd t c allow m = .ok out) :
    out.length = 1 ∧ ∀ m2 ∈ out, m2.name = m.name ∧ m2.fields = m.fields := by
  obtain ⟨m2, rfl, hname, hfields, _⟩ := asyncAddLoop_ok c allow m out h
  refine ⟨rfl, fun m3 hm3 => ?_⟩
  have := List.mem_singleton.mp hm3
  subst this
  exact ⟨hname, hfields⟩

/-- Witness for C8 at a concrete client, allow set and metric. -/
theorem asyncAdd_single_output_witness :
    ([sampleEnriched] : List Metric).length = 1
    ∧ (sampleEnriched.name = sampleMetric.name
        ∧ sampleEnriched.fields = sampleMetric.fields) :=
  ⟨(asyncAdd_single_output 0 sampleClient ["name"] sampleMetric [sampleEnriched]
      (by decide)).1,
   (asyncAdd_single_output 0 sampleClient ["name"] sampleMetric [sampleEnriched]
      (by decide)).2 sampleEnriched (by simp)⟩

/-- C10: `asyncAdd` only adds tags whose names are in the allow set: name,
fields and every tag key outside the allow set are unchanged, and with an
empty allow set the metric comes back untouched. -/
theorem asyncAdd_frame (t : Nat) (c : GceClient) (allow : List String)
    (m : Metric) (out : List Metric) (h : asyncAdd t c allow m = .ok out) :
    (∀ m2 ∈ out, m2.name = m.name ∧ m2.fields = m.fields ∧
        ∀ k, k ∉ allow → m2.getTag k = m.getTag k)
    ∧ (allow = [] → out = [m]) := by
  obtain ⟨m2, rfl, hname, hfields, htags⟩ := asyncAddLoop_ok c allow m out h
  constructor
  · intro m3 hm3
    have := List.mem_singleton.mp hm3
    subst this
    exact ⟨hname, hfields, htags⟩
  · rintro rfl
    simp only [asyncAdd, asyncAddLoop] at h
    injection h with h1
    rw [← h1]

/-- Witness for C10: the pre-existing `host` tag survives enrichment. -/
theorem asyncAdd_frame_witness :
    sampleEnriched.getTag "host" = sampleMetric.getTag "host" :=
  ((asyncAdd_frame 0 sampleClient ["name"] sampleMetric [sampleEnriched]
      (by decide)).1 sampleEnriched (by simp)).2.2 "host" (by decide)

/-- The release cursor never moves backwards. -/
theorem le_drainFrom (done : List Nat) : ∀ fuel n, n ≤ drainFrom done fuel n := by
  intro fuel
  induction fuel with
  | zero => intro n; exact Nat.le_refl n
  | succ fuel ih =>
    intro n
    by_cases h : n ∈ done
    · simp only [drainFrom, if_pos h]
      exact Nat.le_trans (Nat.le_succ n) (ih (n + 1))
    · simp only [drainFrom, if_neg h]
      exact Nat.le_refl n

/-- With enough fuel the cursor stops on an uncompleted sequence number. -/
theorem drainFrom_not_mem (done : List Nat) : ∀ fuel n,
    (done.filter (fun m => decide (n ≤ m))).length ≤ fuel →
    drainFrom done fuel n ∉ done := by
  intro fuel
  induction fuel with
  | zero =>
    intro n hfuel hmem
    have : n ∈ done.filter (fun m => decide (n ≤ m)) :=
      List.mem_filter.mpr ⟨hmem, by simp⟩
    have := List.length_pos.mpr (List.ne_nil_of_mem this)
    omega
  | succ fuel ih =>
    intro n hfuel
    by_cases h : n ∈ done
    · simp only [drainFrom, if_pos h]
      apply ih (n + 1)
      have heq : done.filter (fun m => decide (n + 1 ≤ m)) =
          (done.filter (fun m => decide (n ≤ m))).filter (fun m => decide (n + 1 ≤ m)) := by
        rw [List.filter_filter]
        apply List.filter_congr
        intro x _
        by_cases hx : n + 1 ≤ x
        · have hx2 : n ≤ x := Nat.le_of_succ_le hx
          simp [hx, hx2]
        · simp [hx]
      have hlt : ((done.filter (fun m => decide (n ≤ m))).filter
          (fun m => decide (n + 1 ≤ m))).length <
          (done.filter (fun m => decide (n ≤ m))).length := by
        apply List.length_filter_lt_length_iff_exists.mpr
        refine ⟨n, List.mem_filter.mpr ⟨h, by simp⟩, by simp⟩
      rw [heq]
      omega
    · simp only [drainFrom, if_neg h]
      exact h

/-- Every sequence number the cursor passes over has completed. -/
theorem mem_of_lt_drainFrom (done : List Nat) : ∀ fuel n k,
    n ≤ k → k < drainFrom done fuel n → k ∈ done := by
  intro fuel
  induction fuel with
  | zero =>
    intro n k hnk hk
    simp only [drainFrom] at hk
    omega
  | succ fuel ih =>
    intro n k hnk hk
    by_cases h : n ∈ done
    · simp only [drainFrom, if_pos h] at hk
      by_cases hkn : k = n
      · subst hkn; exact h
      · exact ih (n + 1) k (by omega) hk
    · simp only [drainFrom, if_neg h] at hk
      omega

/-- One completion event preserves the reorder-buffer invariant. -/
theorem orderedStep_inv (ps : List Nat) (s : OrderedState) (c : Nat)
    (h : OrderedInv ps s) : OrderedInv (ps ++ [c]) (orderedStep s c) := by
  obtain ⟨hdone, hrel, hlow, hnext⟩ := h
  have hfuel : ((c :: s.done).filter (fun m => decide (s.next ≤ m))).length ≤
      (c :: s.done).length := List.length_filter_le _ _
  have hle : s.next ≤ drainFrom (c :: s.done) (c :: s.done).length s.next :=
    le_drainFrom _ _ _
  refine ⟨?_, ?_, ?_, ?_⟩
  · intro k
    simp only [orderedStep, List.mem_cons, List.mem_append, hdone k,
      List.mem_singleton]
    tauto
  · show (orderedStep s c).released = List.range (orderedStep s c).next
    simp only [orderedStep]
    rw [hrel, List.range_eq_range', List.range_eq_range']
    have h2 := List.range'_append_1 0 s.next
      (drainFrom (c :: s.done) (c :: s.done).length s.next - s.next)
    rw [Nat.zero_add] at h2
    rw [h2]
    congr 1
    omega
  · intro k hk
    simp only [orderedStep] at hk ⊢
    by_cases hks : k < s.next
    · exact List.mem_cons_of_mem _ (hlow k hks)
    · exact mem_of_lt_drainFrom _ _ _ _ (Nat.le_of_not_lt hks) hk
  · exact drainFrom_not_mem _ _ _ hfuel

/-- Folding completion events preserves the reorder-buffer invariant. -/
theorem orderedRun_inv (comps : List Nat) : ∀ (ps : List Nat) (s : OrderedState),
    OrderedInv ps s → OrderedInv (ps ++ comps) (comps.foldl orderedStep s) := by
  induction comps with
  | nil =>
    intro ps s h
    simpa using h
  | cons c cs ih =>
    intro ps s h
    have h2 := orderedStep_inv ps s c h
    have h3 := ih (ps ++ [c]) _ h2
    simpa [List.append_assoc] using h3

/-- C1: in ordered mode, for every sequence of N enqueued items and every
completion order (any permutation of the N sequence numbers, i.e. arbitrary
per-item enrichment latency), the record stream the Sink receives equals the
enrichment outputs laid out in enqueue order. -/
theorem ordered_mode_preserves_enqueue_order {α : Type} (N : Nat)
    (out : Nat → List α) (comps : List Nat) (hperm : comps.Perm (List.range N)) :
    sinkRecords out comps = (List.range N).flatMap out := by
  have hinv : OrderedInv ([] ++ comps) (orderedRun comps) := by
    apply orderedRun_inv
    exact ⟨fun k => by simp, rfl, fun k hk => absurd hk (Nat.not_lt_zero k), by simp⟩
  obtain ⟨hdone, hrel, hlow, hnext⟩ := hinv
  have hmem : ∀ k, k ∈ (orderedRun comps).done ↔ k < N := by
    intro k
    rw [hdone k]
    simp only [List.nil_append]
    rw [hperm.mem_iff]
    exact List.mem_range
  have hN : (orderedRun comps).next = N := by
    rcases Nat.lt_or_ge (orderedRun comps).next N with hlt | hge
    · exact absurd ((hmem _).mpr hlt) hnext
    · by_contra hne
      have hgt : N < (orderedRun comps).next := by omega
      have := (hmem N).mp (hlow N hgt)
      omega
  unfold sinkRecords
  rw [hrel, hN]

/-- Witness for C1: three items completing in the order 2, 0, 1 are still
released to the Sink as 0, 1, 2. -/
theorem ordered_mode_preserves_enqueue_order_witness :
    sinkRecords (fun i => [i]) [2, 0, 1] = (List.range 3).flatMap (fun i => [i]) :=
  ordered_mode_preserves_enqueue_order 3 (fun i => [i]) [2, 0, 1] (by decide)

end Gce
